import Mathlib

/-!
Verification development for the SILVA reference-database preparation
pipeline (`silva.ipynb`) and the taxonomy parsing of the OTU-table
notebook.  Python string and list operations are shallowly embedded
over `List Char` / `String` with ASCII semantics (the data processed by
the pipeline is plain ASCII).  Exceptions are modelled with `Option` /
`Except`.
-/

/-- Whitespace characters used by Python's `str.split()` and `str.strip()`
(ASCII fragment: space, tab, newline, carriage return, vertical tab,
form feed). -/
def isPySpace (c : Char) : Bool :=
  c = ' ' || c = '\t' || c = '\n' || c = '\x0d' || c = '\x0b' || c = '\x0c'

/-- First whitespace-delimited word of a string, i.e. `s.split()[0]` in
Python; `none` models the `IndexError` raised when the string has no
non-whitespace character. -/
def firstWord (l : List Char) : Option (List Char) :=
  match l.dropWhile isPySpace with
  | [] => none
  | c :: rest => some (c :: rest.takeWhile (fun d => !isPySpace d))

/-- Python `str.islower()` restricted to ASCII: at least one cased
character and no upper-case character. -/
def pyIsLower (w : List Char) : Bool :=
  w.any Char.isLower && !(w.any Char.isUpper)

/-- Python substring containment (`pat in s`). -/
def hasInfix (pat : List Char) : List Char → Bool
  | [] => pat.isEmpty
  | c :: rest => pat.isPrefixOf (c :: rest) || hasInfix pat rest

/-- Embedding of `good_label_rule = lambda rank: not (rank.split()[0].islower()
or 'sp.' in rank)` from `silva.ipynb`.  `none` models the `IndexError` raised
by `rank.split()[0]` on a string without non-whitespace characters. -/
def good_label_rule (rank : String) : Option Bool :=
  match firstWord rank.data with
  | none => none
  | some w => some (!(pyIsLower w || hasInfix ['s', 'p', '.'] rank.data))

/-- Embedding of `filter_taxonomy` from `silva.ipynb`:
`ranks = (rank if rule(rank) else None for rank in taxonomy)` followed by
`list(takewhile(bool, ranks))`.  The generator is lazy, so the rule is
evaluated only up to (and including) the first rank at which `takewhile`
stops; a rank where the rule raises (`none`) propagates the exception.
`takewhile(bool, ...)` keeps a rank while it is truthy, i.e. while the rule
accepted it and it is a non-empty string. -/
def filter_taxonomy (rule : String → Option Bool) : List String → Option (List String)
  | [] => some []
  | r :: rs =>
    match rule r with
    | none => none
    | some b =>
      if b && !(r == "") then (filter_taxonomy rule rs).map (fun t => r :: t)
      else some []

/-- Decidable form of the label-goodness verdict: the rule returns `true`
(in particular it does not raise). -/
def isGoodLabel (r : String) : Bool :=
  good_label_rule r == some true

/-- Modelled from the spec: the longest prefix of the taxonomy whose
elements are all good labels ("truncate at the first bad rank"). -/
def goodLeadingRanks (taxonomy : List String) : List String :=
  taxonomy.takeWhile isGoodLabel

theorem dropWhile_space_ne_nil {l : List Char} (h : l.any (fun c => !isPySpace c)) :
    l.dropWhile isPySpace ≠ [] := by
  induction l with
  | nil => simp at h
  | cons c rest ih =>
    by_cases hc : isPySpace c = true
    · rw [List.dropWhile_cons, if_pos hc]
      apply ih
      simp only [List.any_cons, hc, Bool.not_true, Bool.false_or] at h
      exact h
    · rw [List.dropWhile_cons, if_neg hc]
      simp

theorem firstWord_isSome_of_nonspace {l : List Char} (h : l.any (fun c => !isPySpace c)) :
    (firstWord l).isSome := by
  unfold firstWord
  cases hd : l.dropWhile isPySpace with
  | nil => exact absurd hd (dropWhile_space_ne_nil h)
  | cons c rest => simp

theorem firstWord_none_of_space {l : List Char} (h : l.all isPySpace) :
    firstWord l = none := by
  unfold firstWord
  have hnil : l.dropWhile isPySpace = [] := by
    induction l with
    | nil => simp
    | cons c rest ih =>
      simp only [List.all_cons, Bool.and_eq_true] at h
      rw [List.dropWhile_cons, if_pos h.1]
      exact ih h.2
  simp [hnil]

theorem good_label_rule_ne_empty {r : String} {b : Bool}
    (h : good_label_rule r = some b) : ¬(r == "") := by
  intro he
  have hdata : r.data = [] := by
    cases r
    simpa [String.ext_iff] using of_decide_eq_true he
  unfold good_label_rule at h
  rw [hdata] at h
  simp [firstWord] at h

theorem good_label_rule_isSome_iff {r : String} :
    (∃ b, good_label_rule r = some b) ↔ r.data.any (fun c => !isPySpace c) := by
  constructor
  · rintro ⟨b, hb⟩
    unfold good_label_rule at hb
    cases hw : firstWord r.data with
    | none => rw [hw] at hb; exact absurd hb (by simp)
    | some w =>
      by_contra hall
      have : r.data.all isPySpace := by
        simp only [List.all_eq_true]
        intro c hc
        by_contra hcs
        exact hall (List.any_eq_true.mpr ⟨c, hc, by simp [hcs]⟩)
      rw [firstWord_none_of_space this] at hw
      exact absurd hw (by simp)
  · intro h
    have := firstWord_isSome_of_nonspace h
    unfold good_label_rule
    cases hw : firstWord r.data with
    | none => rw [hw] at this; simp at this
    | some w => exact ⟨_, rfl⟩

theorem filter_taxonomy_good_prefix_aux {tax : List String}
    (h : ∀ r ∈ tax, r.data.any (fun c => !isPySpace c)) :
    filter_taxonomy good_label_rule tax = some (goodLeadingRanks tax) := by
  induction tax with
  | nil => simp [filter_taxonomy, goodLeadingRanks]
  | cons r rs ih =>
    obtain ⟨b, hb⟩ := good_label_rule_isSome_iff.mpr (h r (by simp))
    have hne : (r == "") = false := by
      have := good_label_rule_ne_empty hb
      simpa using this
    unfold filter_taxonomy
    rw [hb]
    cases b with
    | true =>
      have hg : isGoodLabel r = true := by simp [isGoodLabel, hb]
      rw [goodLeadingRanks, List.takeWhile_cons, hg]
      simp only [hne, Bool.and_true, Bool.not_false, if_pos rfl]
      rw [ih (fun x hx => h x (by simp [hx]))]
      rfl
    | false =>
      have hg : isGoodLabel r = false := by simp [isGoodLabel, hb]
      rw [goodLeadingRanks, List.takeWhile_cons, hg]
      simp

/-- C2 (amended): for every list of rank tokens each containing at least one
non-whitespace character, `filter_taxonomy` applied with `good_label_rule`
returns the longest prefix of the list whose elements are all good; in
particular on `["Bacteria", "Proteobacteria", "sp. unknown", "Foo"]` it
returns `["Bacteria", "Proteobacteria"]`. -/
theorem filter_taxonomy_longest_good_prefix :
    (∀ tax : List String, (∀ r ∈ tax, r.data.any (fun c => !isPySpace c)) →
      filter_taxonomy good_label_rule tax = some (goodLeadingRanks tax))
    ∧ filter_taxonomy good_label_rule ["Bacteria", "Proteobacteria", "sp. unknown", "Foo"]
        = some ["Bacteria", "Proteobacteria"] := by
  constructor
  · intro tax h
    exact filter_taxonomy_good_prefix_aux h
  · decide

/-- C2 (counterexample): on a taxonomy containing a whitespace-only rank
token the code raises `IndexError` (modelled as `none`) instead of
returning the longest all-good prefix (which is `[]` here), so the claim
as stated over every list of rank tokens fails. -/
theorem filter_taxonomy_longest_good_prefix_cex :
    filter_taxonomy good_label_rule [" "] ≠ some (goodLeadingRanks [" "]) := by
  decide

theorem filter_taxonomy_longest_good_prefix_witness :
    filter_taxonomy good_label_rule ["Bacteria", "sp. x", "Foo"] = some ["Bacteria"] := by
  have h := filter_taxonomy_longest_good_prefix.1 ["Bacteria", "sp. x", "Foo"] (by decide)
  rw [h]
  decide

/-- C10: the label-goodness check is partial: on a rank token that is empty
or consists only of whitespace `good_label_rule` raises `IndexError`
(modelled as `none`); it returns a boolean verdict exactly when the token
has at least one non-whitespace character; and `filter_taxonomy` applied
with it to a path containing such a token preceded only by good ranks
likewise raises. -/
theorem good_label_rule_partial :
    (∀ t : String, t.data.all isPySpace → good_label_rule t = none)
    ∧ (∀ t : String, t.data.any (fun c => !isPySpace c) → ∃ b, good_label_rule t = some b)
    ∧ (∀ (pre post : List String) (t : String),
        (∀ r ∈ pre, good_label_rule r = some true) → t.data.all isPySpace →
        filter_taxonomy good_label_rule (pre ++ t :: post) = none) := by
  refine ⟨?_, ?_, ?_⟩
  · intro t ht
    unfold good_label_rule
    rw [firstWord_none_of_space ht]
  · intro t ht
    exact good_label_rule_isSome_iff.mpr ht
  · intro pre post t hpre ht
    induction pre with
    | nil =>
      simp only [List.nil_append]
      unfold filter_taxonomy good_label_rule
      rw [firstWord_none_of_space ht]
    | cons r rs ih =>
      have hr : good_label_rule r = some true := hpre r (by simp)
      have hne : (r == "") = false := by
        have := good_label_rule_ne_empty hr
        simpa using this
      simp only [List.cons_append]
      unfold filter_taxonomy
      rw [hr]
      simp only [hne, Bool.and_true, Bool.not_false, if_pos rfl]
      rw [ih (fun x hx => hpre x (by simp [hx]))]
      rfl

theorem good_label_rule_partial_witness :
    good_label_rule "  " = none
    ∧ good_label_rule "Bacteria" = some true
    ∧ filter_taxonomy good_label_rule ["Bacteria", " ", "Foo"] = none := by
  refine ⟨?_, ?_, ?_⟩
  · exact good_label_rule_partial.1 "  " (by decide)
  · obtain ⟨b, hb⟩ := good_label_rule_partial.2.1 "Bacteria" (by decide)
    rw [hb]
    have : b = true := by
      have : good_label_rule "Bacteria" = some true := by decide
      rw [this] at hb
      exact (Option.some_inj.mp hb).symm
    rw [this]
  · exact good_label_rule_partial.2.2 ["Bacteria"] ["Foo"] " " (by decide) (by decide)

/-- Embedding of a Biopython `SeqRecord` as used by the notebook:
identifier, name, description and the nucleotide sequence. -/
structure SeqRec where
  id : String
  name : String
  description : String
  seq : String
deriving DecidableEq, Repr

/-- Python slice `s[a:b]` for non-negative bounds (the primer spans are
always non-negative): clamping semantics, empty when `b ≤ a`. -/
def pySlice (s : String) (a b : Nat) : String :=
  String.mk ((s.data.drop a).take (b - a))

/-- Biopython record slicing `seqrec[a:b]`: the sequence is sliced while
id, name and description are kept. -/
def sliceRecord (r : SeqRec) (a b : Nat) : SeqRec :=
  { r with seq := pySlice r.seq a b }

/-- Embedding of `extract_region` from `silva.ipynb`.  The `try`/`except
TypeError` around the span unpacking catches exactly the case where a
primer search returned `None`, giving `None` for the whole call; otherwise
the record is sliced from the end of the forward match to the start of the
reverse match. -/
def extract_region (forward reverse : String → Option (Nat × Nat)) (seqrec : SeqRec) :
    Option SeqRec :=
  match forward seqrec.seq with
  | none => none
  | some (_, start) =>
    match reverse seqrec.seq with
    | none => none
    | some (e, _) => some (sliceRecord seqrec start e)

/-- C5: `extract_region` returns `None` whenever the forward or the reverse
matcher finds no match in the record's sequence, and (being a total
function of the two match results) no other exception propagates. -/
theorem extract_region_none_on_failed_search
    (forward reverse : String → Option (Nat × Nat)) (seqrec : SeqRec)
    (h : forward seqrec.seq = none ∨ reverse seqrec.seq = none) :
    extract_region forward reverse seqrec = none := by
  unfold extract_region
  rcases h with h | h
  · rw [h]
  · rw [h]
    cases forward seqrec.seq with
    | none => rfl
    | some sp => rcases sp with ⟨a, b⟩; rfl

theorem extract_region_none_on_failed_search_witness :
    extract_region (fun _ => none) (fun _ => some (0, 3))
      { id := "r1", name := "", description := "", seq := "ACGT" } = none := by
  exact extract_region_none_on_failed_search _ _ _ (Or.inl rfl)

/-- C8: when both searches succeed but the region start (end of the forward
match) is at least the region end (start of the reverse match), the result
is still a syntactically valid record — same id, name and description —
with an empty sequence, not an error. -/
theorem extract_region_inverted_spans_empty
    (forward reverse : String → Option (Nat × Nat)) (seqrec : SeqRec)
    (a b c d : Nat) (hf : forward seqrec.seq = some (a, b))
    (hr : reverse seqrec.seq = some (c, d)) (hle : c ≤ b) :
    ∃ r', extract_region forward reverse seqrec = some r'
      ∧ r'.seq = "" ∧ r'.id = seqrec.id ∧ r'.name = seqrec.name
      ∧ r'.description = seqrec.description := by
  refine ⟨sliceRecord seqrec b c, ?_, ?_, rfl, rfl, rfl⟩
  · unfold extract_region
    rw [hf, hr]
  · have hz : c - b = 0 := Nat.sub_eq_zero_of_le hle
    simp [sliceRecord, pySlice, hz]

theorem extract_region_inverted_spans_empty_witness :
    ∃ r', extract_region (fun _ => some (0, 3)) (fun _ => some (1, 2))
        { id := "r1", name := "n", description := "d", seq := "ACGT" } = some r'
      ∧ r'.seq = "" ∧ r'.id = "r1" ∧ r'.name = "n" ∧ r'.description = "d" := by
  exact extract_region_inverted_spans_empty _ _ _ 0 3 1 2 rfl rfl (by decide)

/-- Embedding of the backfill expression
`(*tax, f'unclassified {tax[-1]} isolate')[:7]` from `silva.ipynb`
(evaluated only on paths of length at least 6, so the `getLastD` default
is never used). -/
def backfill (tax : List String) : List String :=
  (tax ++ ["unclassified " ++ tax.getLastD "" ++ " isolate"]).take 7

/-- Embedding of the `silva_seqs_withgen` comprehension: keep a
(record, path) pair only when the truncated path has at least 6 ranks, and
backfill its species rank. -/
def silva_withgen (pairs : List (SeqRec × List String)) : List (SeqRec × List String) :=
  pairs.filterMap (fun p => if 6 ≤ p.2.length then some (p.1, backfill p.2) else none)

/-- C3: a pair whose truncated path has fewer than 6 ranks is dropped from
the export; a path with at least 6 ranks is exported with exactly 7 ranks;
and a path with exactly 6 ranks gets the synthesized species rank
`"unclassified {genus} isolate"` built from its 6th rank. -/
theorem silva_withgen_depth_and_backfill (r : SeqRec) (tax : List String)
    (pairs : List (SeqRec × List String)) :
    (tax.length < 6 → silva_withgen ((r, tax) :: pairs) = silva_withgen pairs)
    ∧ (6 ≤ tax.length →
        silva_withgen ((r, tax) :: pairs) = (r, backfill tax) :: silva_withgen pairs
        ∧ (backfill tax).length = 7)
    ∧ (tax.length = 6 → ∃ g, tax[5]? = some g
        ∧ backfill tax = tax ++ ["unclassified " ++ g ++ " isolate"]) := by
  refine ⟨?_, ?_, ?_⟩
  · intro hlt
    unfold silva_withgen
    rw [List.filterMap_cons]
    simp only [Nat.not_le.mpr hlt, if_neg]
    simp [Nat.not_le.mpr hlt]
  · intro hge
    constructor
    · unfold silva_withgen
      rw [List.filterMap_cons]
      simp [hge]
    · unfold backfill
      rw [List.length_take, List.length_append]
      simp only [List.length_cons, List.length_nil]
      omega
  · intro h6
    have hne : tax ≠ [] := by
      intro h
      rw [h] at h6
      simp at h6
    have h5 : 5 < tax.length := by omega
    refine ⟨tax.getLastD "", ?_, ?_⟩
    · rw [List.getLastD_eq_getLast?, List.getLast?_eq_getElem?, h6,
        show 6 - 1 = 5 from rfl, List.getElem?_eq_getElem h5]
      simp
    · unfold backfill
      apply List.take_of_length_le
      rw [List.length_append, h6]
      simp

theorem silva_withgen_depth_and_backfill_witness :
    silva_withgen [({ id := "s", name := "", description := "", seq := "AC" },
        ["Bacteria", "X", "Y", "Z", "W", "Pseudomonas"])]
      = [({ id := "s", name := "", description := "", seq := "AC" },
        ["Bacteria", "X", "Y", "Z", "W", "Pseudomonas", "unclassified Pseudomonas isolate"])] := by
  have h := (silva_withgen_depth_and_backfill
    { id := "s", name := "", description := "", seq := "AC" }
    ["Bacteria", "X", "Y", "Z", "W", "Pseudomonas"] []).2.1 (by decide)
  rw [h.1]
  decide

/-- Embedding of the `ALPHABET` dictionary of `silva.ipynb`: each of the 15
IUPAC symbols maps to the set of concrete bases of its regex character
class; any other character is a `KeyError` (`none`). -/
def ALPHABET (c : Char) : Option (List Char) :=
  match c with
  | 'A' => some ['A']
  | 'C' => some ['C']
  | 'G' => some ['G']
  | 'T' => some ['T']
  | 'R' => some ['A', 'G']
  | 'Y' => some ['C', 'T']
  | 'S' => some ['G', 'C']
  | 'W' => some ['A', 'T']
  | 'K' => some ['G', 'T']
  | 'M' => some ['A', 'C']
  | 'B' => some ['C', 'G', 'T']
  | 'D' => some ['A', 'G', 'T']
  | 'H' => some ['A', 'C', 'T']
  | 'V' => some ['A', 'C', 'G']
  | 'N' => some ['A', 'C', 'G', 'T']
  | _ => none

/-- Translation of `''.join(ALPHABET[base] for base in primer_sequence)`:
the character classes of the compiled pattern, or the first symbol whose
lookup raises `KeyError`. -/
def compileBases : List Char → Except Char (List (List Char))
  | [] => Except.ok []
  | c :: cs =>
    match ALPHABET c with
    | none => Except.error c
    | some cls => (compileBases cs).map (fun rest => cls :: rest)

/-- A compiled primer pattern: the allowed substitution budget and the
sequence of character classes of `(:?<classes>){s<=k}`. -/
structure CompiledPrimer where
  substitutions : Nat
  classes : List (List Char)
deriving DecidableEq, Repr

/-- Embedding of `mkprimer`: compile each base through `ALPHABET`; a
`KeyError` is re-raised as `ValueError` naming the offending symbol, which
we model as `Except.error` carrying that symbol.  The fuzzy suffix
`{s<=k}` (absent when `substitutions = 0`) never fails, so construction
succeeds exactly when every symbol is in the alphabet. -/
def mkprimer (substitutions : Nat) (primer_sequence : String) : Except Char CompiledPrimer :=
  (compileBases primer_sequence.data).map
    (fun classes => { substitutions := substitutions, classes := classes })

/-- C4: for every primer containing a symbol outside the 15-symbol IUPAC
alphabet, `mkprimer` fails at construction time — for any substitution
budget — with an error naming an offending symbol of the primer; for every
primer built from the recognized symbols, construction succeeds. -/
theorem mkprimer_alphabet_check (substitutions : Nat) (primer : String) :
    ((∃ c ∈ primer.data, ALPHABET c = none) →
      ∃ c, mkprimer substitutions primer = Except.error c
        ∧ c ∈ primer.data ∧ ALPHABET c = none)
    ∧ ((∀ c ∈ primer.data, (ALPHABET c).isSome) →
      ∃ p, mkprimer substitutions primer = Except.ok p) := by
  unfold mkprimer
  constructor
  · intro hbad
    suffices h : ∀ l : List Char, (∃ c ∈ l, ALPHABET c = none) →
        ∃ c, compileBases l = Except.error c ∧ c ∈ l ∧ ALPHABET c = none by
      obtain ⟨c, hc, herr, hnone⟩ := h primer.data hbad
      exact ⟨c, by rw [hc]; rfl, herr, hnone⟩
    intro l
    induction l with
    | nil => rintro ⟨c, hc, _⟩; simp at hc
    | cons d ds ih =>
      rintro ⟨c, hc, hnone⟩
      cases hd : ALPHABET d with
      | none =>
        exact ⟨d, by unfold compileBases; rw [hd], by simp, hd⟩
      | some cls =>
        have hcd : c ≠ d := fun h => by rw [h, hd] at hnone; exact absurd hnone (by simp)
        have hcds : c ∈ ds := by
          rcases List.mem_cons.mp hc with h | h
          · exact absurd h hcd
          · exact h
        obtain ⟨e, he, hmem, hen⟩ := ih ⟨c, hcds, hnone⟩
        refine ⟨e, ?_, by simp [hmem], hen⟩
        unfold compileBases
        rw [hd, he]
        rfl
  · intro hgood
    suffices h : ∀ l : List Char, (∀ c ∈ l, (ALPHABET c).isSome) →
        ∃ cls, compileBases l = Except.ok cls by
      obtain ⟨cls, hcls⟩ := h primer.data hgood
      exact ⟨_, by rw [hcls]; rfl⟩
    intro l
    induction l with
    | nil => intro _; exact ⟨[], rfl⟩
    | cons d ds ih =>
      intro hl
      have hd := hl d (by simp)
      cases hda : ALPHABET d with
      | none => rw [hda] at hd; simp at hd
      | some cls =>
        obtain ⟨rest, hrest⟩ := ih (fun c hc => hl c (by simp [hc]))
        refine ⟨cls :: rest, ?_⟩
        unfold compileBases
        rw [hda, hrest]
        rfl

theorem mkprimer_alphabet_check_witness :
    (∃ c, mkprimer 2 "AXGT" = Except.error c ∧ c ∈ "AXGT".data ∧ ALPHABET c = none)
    ∧ ∃ p, mkprimer 0 "GTGCCAGCMGCCGCGGTAA" = Except.ok p := by
  exact ⟨(mkprimer_alphabet_check 2 "AXGT").1 (by decide),
    (mkprimer_alphabet_check 0 "GTGCCAGCMGCCGCGGTAA").2 (by decide)⟩

/-- Matching of a sequence of character classes against a prefix of the
input. -/
def matchesAt : List (List Char) → List Char → Bool
  | [], _ => true
  | _ :: _, [] => false
  | cl :: cls, c :: rest => cl.contains c && matchesAt cls rest

/-- One position of the compiled pattern `(:?<classes>)` with no fuzziness:
the regex first tries to consume an optional literal colon (the `(:?`
group is a literal `:?`, not a non-capturing group marker), then the
character classes; the returned value is the length of the match. -/
def matchColon (classes : List (List Char)) (s : List Char) : Option Nat :=
  match s with
  | ':' :: rest =>
    if matchesAt classes rest then some (classes.length + 1)
    else if matchesAt classes s then some classes.length
    else none
  | _ => if matchesAt classes s then some classes.length else none

/-- Leftmost-match search of the zero-substitution compiled pattern,
returning the half-open span of the first match, as `pattern.search`
does. -/
def searchFrom (classes : List (List Char)) : Nat → List Char → Option (Nat × Nat)
  | i, [] => (matchColon classes []).map (fun len => (i, i + len))
  | i, c :: rest =>
    match matchColon classes (c :: rest) with
    | some len => some (i, i + len)
    | none => searchFrom classes (i + 1) rest

/-- Search of a compiled primer with `substitutions = 0` over a sequence
(the fuzzy suffix is absent, so matching is exact). -/
def primer_search (p : CompiledPrimer) (s : String) : Option (Nat × Nat) :=
  searchFrom p.classes 0 s.data

/-- Index of the first occurrence of `pat` as an exact substring, scanning
from position `i`. -/
def firstOccFrom (pat : List Char) : Nat → List Char → Option Nat
  | i, [] => if pat.isPrefixOf [] then some i else none
  | i, c :: rest => if pat.isPrefixOf (c :: rest) then some i else firstOccFrom pat (i + 1) rest

/-- Modelled from the spec: the index of the first occurrence of `pat` as
an exact substring of `s`. -/
def firstOcc (pat s : List Char) : Option Nat :=
  firstOccFrom pat 0 s

theorem compileBases_acgt {l : List Char}
    (h : ∀ c ∈ l, c ∈ (['A', 'C', 'G', 'T'] : List Char)) :
    compileBases l = Except.ok (l.map (fun c => [c])) := by
  induction l with
  | nil => rfl
  | cons c cs ih =>
    have hc : ALPHABET c = some [c] := by
      have hmem := h c (by simp)
      fin_cases hmem <;> rfl
    unfold compileBases
    rw [hc, ih (fun d hd => h d (by simp [hd]))]
    rfl

theorem matchesAt_singletons (pat : List Char) :
    ∀ s : List Char, matchesAt (pat.map (fun c => [c])) s = pat.isPrefixOf s := by
  induction pat with
  | nil => intro s; simp [matchesAt, List.isPrefixOf]
  | cons p ps ih =>
    intro s
    cases s with
    | nil => simp [matchesAt, List.isPrefixOf]
    | cons c rest =>
      simp only [List.map_cons, matchesAt, List.isPrefixOf, ih rest]
      have hpc : (([p] : List Char).contains c) = (p == c) := by
        by_cases hcp : c = p
        · subst hcp; simp [List.contains]
        · have h2 : ¬p = c := fun h => hcp h.symm
          simp [List.contains, hcp, h2]
      rw [hpc]

theorem matchColon_no_colon {classes : List (List Char)} {s : List Char}
    (h : ∀ c ∈ s, c ≠ ':') :
    matchColon classes s = if matchesAt classes s then some classes.length else none := by
  unfold matchColon
  split
  · exact absurd rfl (h ':' (by simp_all))
  · rfl

theorem searchFrom_eq_firstOccFrom (pat : List Char) :
    ∀ (s : List Char) (i : Nat), (∀ c ∈ s, c ≠ ':') →
      searchFrom (pat.map (fun c => [c])) i s
        = (firstOccFrom pat i s).map (fun j => (j, j + pat.length)) := by
  intro s
  induction s with
  | nil =>
    intro i _
    unfold searchFrom firstOccFrom
    rw [matchColon_no_colon (by simp), matchesAt_singletons]
    cases hpre : pat.isPrefixOf ([] : List Char) <;> simp [List.length_map]
  | cons c rest ih =>
    intro i hc
    unfold searchFrom firstOccFrom
    rw [matchColon_no_colon hc, matchesAt_singletons]
    cases hpre : pat.isPrefixOf (c :: rest) with
    | true => simp [List.length_map]
    | false =>
      simp only [Bool.false_eq_true, if_false]
      exact ih (i + 1) (fun d hd => hc d (by simp [hd]))

/-- C7: for a primer built purely from the unambiguous bases A/C/G/T and
compiled with zero substitutions, searching a sequence over the DNA
alphabet returns the half-open span of the first exact occurrence of the
primer, and returns no match when the primer does not occur exactly. -/
theorem primer_search_exact_span (primer s : String)
    (hp : ∀ c ∈ primer.data, c ∈ (['A', 'C', 'G', 'T'] : List Char))
    (hs : ∀ c ∈ s.data, c ∈ (['A', 'C', 'G', 'T'] : List Char)) :
    ∃ p, mkprimer 0 primer = Except.ok p
      ∧ (∀ i, firstOcc primer.data s.data = some i →
          primer_search p s = some (i, i + primer.data.length))
      ∧ (firstOcc primer.data s.data = none → primer_search p s = none) := by
  have hnc : ∀ c ∈ s.data, c ≠ ':' := by
    intro c hcm heq
    subst heq
    exact absurd (hs ':' hcm) (by decide)
  refine ⟨{ substitutions := 0, classes := primer.data.map (fun c => [c]) }, ?_, ?_, ?_⟩
  · unfold mkprimer
    rw [compileBases_acgt hp]
    rfl
  · intro i hi
    unfold primer_search firstOcc at *
    rw [searchFrom_eq_firstOccFrom primer.data s.data 0 hnc, hi]
    rfl
  · intro hnone
    unfold primer_search firstOcc at *
    rw [searchFrom_eq_firstOccFrom primer.data s.data 0 hnc, hnone]
    rfl

theorem primer_search_exact_span_witness :
    (∃ p, mkprimer 0 "ACGT" = Except.ok p ∧ primer_search p "TTACGTA" = some (2, 6))
    ∧ (∃ p, mkprimer 0 "ACGT" = Except.ok p ∧ primer_search p "TTAGGTA" = none) := by
  constructor
  · obtain ⟨p, hok, hocc, _⟩ :=
      primer_search_exact_span "ACGT" "TTACGTA" (by decide) (by decide)
    exact ⟨p, hok, hocc 2 (by decide)⟩
  · obtain ⟨p, hok, _, hnone⟩ :=
      primer_search_exact_span "ACGT" "TTAGGTA" (by decide) (by decide)
    exact ⟨p, hok, hnone (by decide)⟩

/-- Embedding of `back_transcribe` from `silva.ipynb`: a new record with
the same id, name and description and the RNA sequence back-transcribed
(U/u replaced by T/t). -/
def back_transcribe (seqrec : SeqRec) : SeqRec :=
  { id := seqrec.id, name := seqrec.name, description := seqrec.description,
    seq := String.mk (seqrec.seq.data.map
      (fun c => if c = 'U' then 'T' else if c = 'u' then 't' else c)) }

/-- The length-window filter `1100 <= len(seqrec) <= 1600` of the
extraction pipeline (`len` of a record is the length of its sequence). -/
def lenOK (seqrec : SeqRec) : Bool :=
  1100 ≤ seqrec.seq.length && seqrec.seq.length ≤ 1600

/-- Python truthiness of an `Optional[SeqRecord]` as used by
`filter(bool, ...)`: `None` is falsy, while a `SeqRecord` is always
truthy — Biopython's `SeqRecord.__bool__` returns `True` unconditionally
(it does not delegate to `__len__`), so even a record with an empty
sequence is kept. -/
def recTruthy : Option SeqRec → Bool
  | none => false
  | some _ => true

/-- Model of `ThreadPoolExecutor.map`: workers may finish tasks in an
arbitrary completion order `sched` (a permutation of the task indices),
but results are delivered in submission order, i.e. sorted back by task
index. -/
def poolMap (f : SeqRec → Option SeqRec) (xs : List SeqRec) (sched : List Nat) :
    List (Option SeqRec) :=
  (sched.mergeSort (fun a b => decide (a ≤ b))).filterMap (fun i => (xs[i]?).map f)

/-- Embedding of the `silva_seqs` pipeline of `silva.ipynb`: length
filter, back-transcription, region extraction over the worker pool with
completion order `sched`, and `filter(bool, ...)` dropping failed
extractions (only `None` results: an extracted record is always
truthy, even when empty). -/
def silva_seqs (forward reverse : String → Option (Nat × Nat)) (sched : List Nat)
    (records : List SeqRec) : List SeqRec :=
  ((poolMap (extract_region forward reverse)
      ((records.filter lenOK).map back_transcribe) sched).filter recTruthy).filterMap id

/-- Modelled from the spec: the per-record fate of the sequential (single
worker) pipeline — drop records outside the length window, back-transcribe,
extract, drop failed extractions. -/
def pipelineSpec (forward reverse : String → Option (Nat × Nat)) (r : SeqRec) :
    Option SeqRec :=
  if lenOK r then extract_region forward reverse (back_transcribe r)
  else none

theorem mergeSort_perm_range {sched : List Nat} {n : Nat}
    (h : sched.Perm (List.range n)) :
    sched.mergeSort (fun a b => decide (a ≤ b)) = List.range n := by
  apply List.eq_of_perm_of_sorted (r := (· ≤ · : Nat → Nat → Prop))
  · exact (List.mergeSort_perm sched _).trans h
  · have hs : List.Pairwise (fun a b : Nat => decide (a ≤ b) = true)
        (sched.mergeSort (fun a b => decide (a ≤ b))) :=
      List.sorted_mergeSort
        (fun a b c hab hbc => by
          simp only [decide_eq_true_eq] at *
          omega)
        (fun a b => by
          simp only [Bool.or_eq_true, decide_eq_true_eq]
          omega) sched
    exact hs.imp (fun hab => by simpa using hab)
  · exact (List.sorted_lt_range n).imp (fun h => le_of_lt h)

theorem filterMap_range_get (f : SeqRec → Option SeqRec) :
    ∀ xs : List SeqRec,
      (List.range xs.length).filterMap (fun i => (xs[i]?).map f) = xs.map f := by
  intro xs
  induction xs with
  | nil => rfl
  | cons x xs ih =>
    rw [List.length_cons, List.range_succ_eq_map, List.filterMap_cons, List.filterMap_map]
    have hfun : ((fun i => (((x :: xs)[i]?).map f)) ∘ Nat.succ)
        = (fun i => ((xs[i]?).map f)) := by
      funext i
      simp
    rw [hfun, ih]
    simp

theorem poolMap_perm_range {sched : List Nat} {xs : List SeqRec}
    (f : SeqRec → Option SeqRec) (h : sched.Perm (List.range xs.length)) :
    poolMap f xs sched = xs.map f := by
  unfold poolMap
  rw [mergeSort_perm_range h, filterMap_range_get]

theorem filterMap_filter {α β : Type} (q : α → Bool) (g : α → Option β) :
    ∀ l : List α,
      (l.filter q).filterMap g
        = l.filterMap (fun x => if q x then g x else none) := by
  intro l
  induction l with
  | nil => rfl
  | cons x xs ih =>
    cases hq : q x with
    | true =>
      simp only [List.filter_cons, hq, if_true, List.filterMap_cons, ih]
    | false =>
      simp only [List.filter_cons, hq, Bool.false_eq_true, if_false,
        List.filterMap_cons, ih]

theorem silva_seqs_eq_filterMap (forward reverse : String → Option (Nat × Nat))
    (records : List SeqRec) (sched : List Nat)
    (h : sched.Perm (List.range (records.filter lenOK).length)) :
    silva_seqs forward reverse sched records
      = records.filterMap (pipelineSpec forward reverse) := by
  unfold silva_seqs
  have hlen : ((records.filter lenOK).map back_transcribe).length
      = (records.filter lenOK).length := List.length_map _ _
  rw [poolMap_perm_range _ (by rw [hlen]; exact h)]
  rw [List.filter_map, List.filterMap_map, filterMap_filter, List.filterMap_map,
    filterMap_filter]
  congr 1
  funext r
  by_cases hl : lenOK r = true
  · simp only [Function.comp, hl, if_pos rfl, pipelineSpec]
    cases hex : extract_region forward reverse (back_transcribe r) with
    | none => simp [recTruthy, hex]
    | some e => simp [recTruthy, hex]
  · simp [Function.comp, hl, pipelineSpec]

/-- C1: the concurrent extraction pipeline (length filter,
back-transcription, region extraction over a worker pool, dropping of
failed extractions) produces, for every finite input and every completion
order of the pool's tasks, exactly the sequence produced by the sequential
(identity order, i.e. one worker) run; that sequence is an order-preserving
per-record filter of the input, so surviving records keep the relative
order of their input records regardless of worker count. -/
theorem silva_seqs_order_deterministic (forward reverse : String → Option (Nat × Nat))
    (records : List SeqRec) (sched : List Nat)
    (h : sched.Perm (List.range (records.filter lenOK).length)) :
    silva_seqs forward reverse sched records
      = silva_seqs forward reverse (List.range (records.filter lenOK).length) records
    ∧ silva_seqs forward reverse sched records
      = records.filterMap (pipelineSpec forward reverse) := by
  have h1 := silva_seqs_eq_filterMap forward reverse records sched h
  have h2 := silva_seqs_eq_filterMap forward reverse records
    (List.range (records.filter lenOK).length) (List.Perm.refl _)
  exact ⟨h1.trans h2.symm, h1⟩

/-- A full-length test record surviving the length window. -/
def testRecA : SeqRec :=
  { id := "a", name := "", description := "", seq := String.mk (List.replicate 1100 'A') }

/-- A second full-length test record. -/
def testRecB : SeqRec :=
  { id := "b", name := "", description := "", seq := String.mk (List.replicate 1105 'C') }

set_option maxRecDepth 10000 in
theorem silva_seqs_order_deterministic_witness :
    silva_seqs (fun _ => some (0, 2)) (fun _ => some (5, 7)) [1, 0] [testRecA, testRecB]
      = silva_seqs (fun _ => some (0, 2)) (fun _ => some (5, 7))
          (List.range ([testRecA, testRecB].filter lenOK).length) [testRecA, testRecB]
    ∧ silva_seqs (fun _ => some (0, 2)) (fun _ => some (5, 7)) [1, 0] [testRecA, testRecB]
      = [testRecA, testRecB].filterMap
          (pipelineSpec (fun _ => some (0, 2)) (fun _ => some (5, 7))) :=
  silva_seqs_order_deterministic (fun _ => some (0, 2)) (fun _ => some (5, 7))
    [testRecA, testRecB] [1, 0] (by decide)

/-- Character class `[0-9.]` of the confidence-score regex. -/
def isDigitDot (c : Char) : Bool :=
  c.isDigit || c = '.'

/-- One attempted match of the pattern `\([0-9.]+\)$` at the head of `s`
(standard `re` semantics: `$` matches at the end of the string or just
before a terminal newline).  `some tail` returns what follows the matched
text (`[]` or the terminal newline, which `re.sub` keeps); the `+` class
is matched greedily by `takeWhile`, which is exact here because `)` is not
in the class. -/
def confTail : List Char → Option (List Char)
  | [] => none
  | c :: rest =>
    if c = '(' then
      let ds := rest.takeWhile isDigitDot
      match rest.dropWhile isDigitDot with
      | [] => none
      | c2 :: tail =>
        if c2 = ')' then
          if ds.isEmpty then none
          else if tail.isEmpty || tail == ['\n'] then some tail else none
        else none
    else none

/-- Embedding of `re.compile('\([0-9.]+\)$').sub('', x)`: scan left to
right for the first match of the anchored pattern and delete it (at most
one match can exist, since any match extends to the end of the string). -/
def pyStripConf : List Char → List Char
  | [] => []
  | c :: rest =>
    match confTail (c :: rest) with
    | some tail => tail
    | none => c :: pyStripConf rest

/-- Recognition of a trailing parenthesized confidence score on the
reversed string: `)` then digits and dots, then `(`; returns the part of
the string before the score. -/
def stripTrailingRev : List Char → Option (List Char)
  | [] => none
  | c :: rest =>
    if c = ')' then
      let ds := rest.takeWhile isDigitDot
      match rest.dropWhile isDigitDot with
      | [] => none
      | c2 :: pre =>
        if c2 = '(' then
          if ds.isEmpty then none else some pre.reverse
        else none
    else none

/-- Modelled from the spec: "strip a trailing parenthesized confidence
score" — remove a suffix `(<digits and dots>)` when present. -/
def specStripConf (l : List Char) : List Char :=
  (stripTrailingRev l.reverse).getD l

/-- The pattern of `re.compile('isolate').sub('', x)`. -/
def isoChars : List Char :=
  ['i', 's', 'o', 'l', 'a', 't', 'e']

/-- Embedding of `re.compile('isolate').sub('', x)`: delete all
non-overlapping occurrences of `isolate`, scanning left to right and
resuming after each deleted occurrence. -/
def removeIsolate : List Char → List Char
  | [] => []
  | c :: rest =>
    if isoChars.isPrefixOf (c :: rest) then removeIsolate (rest.drop 6)
    else c :: removeIsolate rest
termination_by l => l.length
decreasing_by
  all_goals simp [List.length_drop]
  all_goals omega

/-- Python `x.replace('_', ' ')`. -/
def underscoreToSpace (l : List Char) : List Char :=
  l.map (fun c => if c = '_' then ' ' else c)

/-- Python `str.strip()`: drop leading and trailing whitespace. -/
def pyStrip (l : List Char) : List Char :=
  ((l.dropWhile isPySpace).reverse.dropWhile isPySpace).reverse

/-- Embedding of `parse_rank` from the OTU-table notebook: strip a
trailing parenthesized confidence score, delete the `isolate` qualifier,
replace underscores by spaces, trim whitespace — in that order. -/
def parse_rank (r : List Char) : List Char :=
  pyStrip (underscoreToSpace (removeIsolate (pyStripConf r)))

/-- Modelled from the spec: the token normalization described in §4.4,
with the trailing-confidence-score removal written as a direct suffix
check. -/
def specNormalizeRank (r : List Char) : List Char :=
  pyStrip (underscoreToSpace (removeIsolate (specStripConf r)))

/-- Python `s.split(';')` (keeps empty tokens). -/
def splitSemi : List Char → List (List Char)
  | [] => [[]]
  | c :: rest =>
    if c = ';' then [] :: splitSemi rest
    else
      match splitSemi rest with
      | [] => [[c]]
      | t :: ts => (c :: t) :: ts

/-- Modelled from the spec: rejoining semicolon-delimited tokens. -/
def joinSemi : List (List Char) → List Char
  | [] => []
  | t :: ts =>
    match ts with
    | [] => t
    | _ :: _ => t ++ ';' :: joinSemi ts

/-- Python `desc.split(' ', 1)[1]`: the text after the first space;
`none` models the `IndexError` raised when there is no space. -/
def pySplitFirstSpace : List Char → Option (List Char)
  | [] => none
  | c :: rest => if c = ' ' then some rest else pySplitFirstSpace rest

/-- Embedding of `parse_taxonomy` from `silva.ipynb`:
`seqrec.description.split(' ', 1)[1].split(';')`. -/
def parse_taxonomy (description : List Char) : Option (List (List Char)) :=
  (pySplitFirstSpace description).map splitSemi

/-- Embedding of the `parsed` list of `parse_taxa` from the OTU-table
notebook: `[parse_rank(rank) for rank in tax.split(';')][1:7]`. -/
def parse_taxa_ranks (tax : List Char) : List (List Char) :=
  (((splitSemi tax).map parse_rank).drop 1).take 6

theorem takeWhile_append_stop {p : Char → Bool} :
    ∀ (xs : List Char) {y : Char} (zs : List Char), (∀ c ∈ xs, p c = true) → p y = false →
      (xs ++ y :: zs).takeWhile p = xs ∧ (xs ++ y :: zs).dropWhile p = y :: zs := by
  intro xs
  induction xs with
  | nil =>
    intro y zs _ hy
    simp [List.takeWhile_cons, List.dropWhile_cons, hy]
  | cons x xs ih =>
    intro y zs hall hy
    have hx : p x = true := hall x (by simp)
    have hrec := ih zs (fun c hc => hall c (by simp [hc])) hy
    simp only [List.cons_append, List.takeWhile_cons, List.dropWhile_cons, hx, if_true]
    exact ⟨by rw [hrec.1], by rw [hrec.2]⟩

/-- Decomposition of a string as a body followed by a parenthesized
confidence score reaching the end of the string. -/
def HasConfScore (l a ds : List Char) : Prop :=
  l = a ++ '(' :: (ds ++ [')']) ∧ ds ≠ [] ∧ ∀ c ∈ ds, isDigitDot c = true

theorem hasConfScore_unique :
    ∀ (a : List Char) {l a' ds ds' : List Char},
      HasConfScore l a ds → HasConfScore l a' ds' → a = a' ∧ ds = ds' := by
  intro a
  induction a with
  | nil =>
    intro l a' ds ds' h1 h2
    obtain ⟨hl1, hne1, hdd1⟩ := h1
    obtain ⟨hl2, hne2, hdd2⟩ := h2
    cases a' with
    | nil =>
      refine ⟨rfl, ?_⟩
      rw [hl1] at hl2
      simp only [List.nil_append, List.cons.injEq, true_and] at hl2
      have hlen : ds.length = ds'.length := by
        have := congrArg List.length hl2
        simp at this
        omega
      exact (List.append_inj hl2 hlen).1
    | cons c a0 =>
      exfalso
      rw [hl1] at hl2
      simp only [List.nil_append, List.cons_append, List.cons.injEq] at hl2
      have hmem : '(' ∈ ds ++ [')'] := by
        rw [hl2.2]
        exact List.mem_append.mpr (Or.inr (by simp))
      rcases List.mem_append.mp hmem with h | h
      · have := hdd1 '(' h
        simp [isDigitDot] at this
      · simp at h
  | cons c a0 ih =>
    intro l a' ds ds' h1 h2
    obtain ⟨hl1, hne1, hdd1⟩ := h1
    obtain ⟨hl2, hne2, hdd2⟩ := h2
    cases a' with
    | nil =>
      exfalso
      rw [hl2] at hl1
      simp only [List.nil_append, List.cons_append, List.cons.injEq] at hl1
      have hmem : '(' ∈ ds' ++ [')'] := by
        rw [hl1.2]
        exact List.mem_append.mpr (Or.inr (by simp))
      rcases List.mem_append.mp hmem with h | h
      · have := hdd2 '(' h
        simp [isDigitDot] at this
      · simp at h
    | cons c' a0' =>
      rw [hl1] at hl2
      simp only [List.cons_append, List.cons.injEq] at hl2
      obtain ⟨hcc, htail⟩ := hl2
      have hrec := ih ⟨rfl, hne1, hdd1⟩
        (⟨htail, hne2, hdd2⟩ : HasConfScore (a0 ++ '(' :: (ds ++ [')'])) a0' ds')
      exact ⟨by rw [hcc, hrec.1], hrec.2⟩

theorem confTail_of_score {ds tail : List Char} (hne : ds ≠ [])
    (hdd : ∀ c ∈ ds, isDigitDot c = true) (ht : tail = [] ∨ tail = ['\n']) :
    confTail ('(' :: (ds ++ ')' :: tail)) = some tail := by
  have hspan := takeWhile_append_stop ds tail hdd (by decide : isDigitDot ')' = false)
  have hie : ds.isEmpty = false := by
    cases ds with
    | nil => exact absurd rfl hne
    | cons d ds0 => rfl
  simp only [confTail, hspan.1, hspan.2, hie, if_pos rfl]
  rcases ht with h | h <;> subst h <;> simp

theorem confTail_some_inv {s tl0 : List Char} (h : confTail s = some tl0) :
    ∃ ds, s = '(' :: (ds ++ ')' :: tl0) ∧ ds ≠ []
      ∧ (∀ c ∈ ds, isDigitDot c = true) ∧ (tl0 = [] ∨ tl0 = ['\n']) := by
  cases s with
  | nil => simp [confTail] at h
  | cons c rest =>
    by_cases hc : c = '('
    · subst hc
      cases hd : rest.dropWhile isDigitDot with
      | nil => simp [confTail, hd] at h
      | cons c2 tl =>
        by_cases hc2 : c2 = ')'
        · subst hc2
          by_cases hie : (rest.takeWhile isDigitDot).isEmpty
          · simp [confTail, hd, hie] at h
          · cases hcond : (tl.isEmpty || tl == ['\n']) with
            | false =>
              simp only [confTail, hd, hcond, if_pos rfl, Bool.false_eq_true, if_false,
                if_neg hie] at h
              exact absurd h (by simp)
            | true =>
              simp only [confTail, hd, hcond, if_pos rfl, if_true, if_neg hie] at h
              have htl : tl = tl0 := by simpa using h
              subst htl
              have hrest : rest = rest.takeWhile isDigitDot ++ ')' :: tl := by
                conv_lhs =>
                  rw [(List.takeWhile_append_dropWhile (p := isDigitDot) (l := rest)).symm]
                rw [hd]
              refine ⟨rest.takeWhile isDigitDot, by conv_lhs => rw [hrest], ?_, ?_, ?_⟩
              · intro hnil
                rw [hnil] at hie
                exact hie rfl
              · intro d hdm
                exact List.mem_takeWhile_imp hdm
              · rcases Bool.or_eq_true_iff.mp hcond with h1 | h1
                · exact Or.inl (List.isEmpty_iff.mp h1)
                · exact Or.inr (by simpa using h1)
        · simp [confTail, hd, hc2] at h
    · simp [confTail, hc] at h

theorem pyStripConf_cons (c : Char) (rest : List Char) :
    pyStripConf (c :: rest) = match confTail (c :: rest) with
      | some tl => tl
      | none => c :: pyStripConf rest := rfl

theorem pyStripConf_of_score :
    ∀ (a : List Char) {l ds : List Char}, HasConfScore l a ds → '\n' ∉ l →
      pyStripConf l = a := by
  intro a
  induction a with
  | nil =>
    intro l ds h hn
    obtain ⟨hl, hne, hdd⟩ := h
    subst hl
    have hct := confTail_of_score hne hdd (Or.inl rfl)
    simp only [List.nil_append, pyStripConf]
    rw [show ds ++ [')'] = ds ++ ')' :: [] from rfl, hct]
  | cons c a0 ih =>
    intro l ds h hn
    obtain ⟨hl, hne, hdd⟩ := h
    subst hl
    have hct : confTail (c :: (a0 ++ '(' :: (ds ++ [')']))) = none := by
      cases hc : confTail (c :: (a0 ++ '(' :: (ds ++ [')']))) with
      | none => rfl
      | some tl =>
        obtain ⟨ds2, hs2, hne2, hdd2, htail⟩ := confTail_some_inv hc
        rcases htail with h0 | h1
        · subst h0
          have h1s : HasConfScore (c :: (a0 ++ '(' :: (ds ++ [')']))) [] ds2 :=
            ⟨by simpa using hs2, hne2, hdd2⟩
          have h2s : HasConfScore (c :: (a0 ++ '(' :: (ds ++ [')']))) (c :: a0) ds :=
            ⟨rfl, hne, hdd⟩
          have := (hasConfScore_unique [] h1s h2s).1
          simp at this
        · subst h1
          exfalso
          apply hn
          rw [List.cons_append, hs2]
          simp
    rw [List.cons_append, pyStripConf_cons, hct]
    have hrec := ih (l := a0 ++ '(' :: (ds ++ [')'])) ⟨rfl, hne, hdd⟩
      (fun hm => hn (by rw [List.cons_append]; exact List.mem_cons_of_mem c hm))
    rw [hrec]

theorem pyStripConf_no_score :
    ∀ (l : List Char), (¬ ∃ a ds, HasConfScore l a ds) → '\n' ∉ l →
      pyStripConf l = l := by
  intro l
  induction l with
  | nil => intro _ _; rfl
  | cons c rest ih =>
    intro hno hn
    have hct : confTail (c :: rest) = none := by
      cases hc : confTail (c :: rest) with
      | none => rfl
      | some tl =>
        obtain ⟨ds2, hs2, hne2, hdd2, htail⟩ := confTail_some_inv hc
        rcases htail with h0 | h1
        · subst h0
          exact absurd ⟨[], ds2, by simpa using hs2, hne2, hdd2⟩ hno
        · subst h1
          exfalso
          apply hn
          rw [hs2]
          simp
    simp only [pyStripConf]
    rw [hct]
    have hno' : ¬ ∃ a ds, HasConfScore rest a ds := by
      rintro ⟨a, ds, ha, hb, hcc⟩
      exact hno ⟨c :: a, ds, by rw [ha]; rfl, hb, hcc⟩
    rw [ih hno' (fun hm => hn (List.mem_cons_of_mem c hm))]

theorem stripTrailingRev_of_score {a ds : List Char} (hne : ds ≠ [])
    (hdd : ∀ c ∈ ds, isDigitDot c = true) :
    stripTrailingRev (')' :: (ds.reverse ++ '(' :: a.reverse)) = some a := by
  have hdd' : ∀ c ∈ ds.reverse, isDigitDot c = true :=
    fun c hc => hdd c (List.mem_reverse.mp hc)
  have hspan := takeWhile_append_stop ds.reverse a.reverse hdd'
    (by decide : isDigitDot '(' = false)
  have hie : ds.reverse.isEmpty = false := by
    cases hrv : ds.reverse with
    | nil => exact absurd (by simpa using hrv) hne
    | cons x xs => rfl
  simp only [stripTrailingRev, hspan.1, hspan.2, hie, if_pos rfl]
  simp

theorem specStripConf_of_score {l a ds : List Char} (h : HasConfScore l a ds) :
    specStripConf l = a := by
  obtain ⟨hl, hne, hdd⟩ := h
  have hrev : l.reverse = ')' :: (ds.reverse ++ '(' :: a.reverse) := by
    subst hl
    simp [List.reverse_append, List.append_assoc]
  unfold specStripConf
  rw [hrev, stripTrailingRev_of_score hne hdd]
  rfl

theorem specStripConf_no_score (l : List Char)
    (hno : ¬ ∃ a ds, HasConfScore l a ds) : specStripConf l = l := by
  unfold specStripConf
  cases hr : l.reverse with
  | nil => rfl
  | cons c rest =>
    by_cases hc : c = ')'
    · subst hc
      cases hd : rest.dropWhile isDigitDot with
      | nil => simp [stripTrailingRev, hd]
      | cons c2 pre =>
        by_cases hc2 : c2 = '('
        · subst hc2
          by_cases hie : (rest.takeWhile isDigitDot).isEmpty
          · simp [stripTrailingRev, hd, hie]
          · exfalso
            apply hno
            have hrest : rest = rest.takeWhile isDigitDot ++ '(' :: pre := by
              conv_lhs =>
                rw [(List.takeWhile_append_dropWhile (p := isDigitDot) (l := rest)).symm]
              rw [hd]
            have hl : l = pre.reverse
                ++ '(' :: ((rest.takeWhile isDigitDot).reverse ++ [')']) := by
              conv_lhs => rw [← List.reverse_reverse l, hr, hrest]
              simp [List.reverse_append, List.append_assoc]
            refine ⟨pre.reverse, (rest.takeWhile isDigitDot).reverse, hl, ?_, ?_⟩
            · intro hnil
              rw [List.reverse_eq_nil_iff] at hnil
              rw [hnil] at hie
              exact hie rfl
            · intro d hdm
              exact List.mem_takeWhile_imp (List.mem_reverse.mp hdm)
        · simp [stripTrailingRev, hd, hc2]
    · simp [stripTrailingRev, hc]

theorem pyStripConf_eq_specStripConf {l : List Char} (hn : '\n' ∉ l) :
    pyStripConf l = specStripConf l := by
  by_cases h : ∃ a ds, HasConfScore l a ds
  · obtain ⟨a, ds, hs⟩ := h
    rw [pyStripConf_of_score a hs hn, specStripConf_of_score hs]
  · rw [pyStripConf_no_score l h hn, specStripConf_no_score l h]

theorem parse_rank_eq_specNormalizeRank {r : List Char} (hn : '\n' ∉ r) :
    parse_rank r = specNormalizeRank r := by
  unfold parse_rank specNormalizeRank
  rw [pyStripConf_eq_specStripConf hn]

theorem splitSemi_ne_nil : ∀ l : List Char, splitSemi l ≠ [] := by
  intro l
  induction l with
  | nil => simp [splitSemi]
  | cons c rest ih =>
    by_cases hc : c = ';'
    · simp [splitSemi, hc]
    · simp only [splitSemi, if_neg hc]
      cases hS : splitSemi rest with
      | nil => exact absurd hS ih
      | cons t ts => simp

theorem joinSemi_splitSemi : ∀ l : List Char, joinSemi (splitSemi l) = l := by
  intro l
  induction l with
  | nil => rfl
  | cons c rest ih =>
    by_cases hc : c = ';'
    · subst hc
      cases hS : splitSemi rest with
      | nil => exact absurd hS (splitSemi_ne_nil rest)
      | cons t ts =>
        rw [show splitSemi (';' :: rest) = [] :: splitSemi rest from by simp [splitSemi], hS]
        rw [show joinSemi ([] :: t :: ts) = [] ++ ';' :: joinSemi (t :: ts) from rfl,
          ← hS, ih]
        rfl
    · cases hS : splitSemi rest with
      | nil => exact absurd hS (splitSemi_ne_nil rest)
      | cons t ts =>
        rw [show splitSemi (c :: rest) = match splitSemi rest with
          | [] => [[c]]
          | t :: ts => (c :: t) :: ts
          from by simp [splitSemi, hc], hS]
        cases ts with
        | nil =>
          have ht : t = rest := by
            have h := ih
            rw [hS] at h
            exact h
          rw [show joinSemi [c :: t] = c :: t from rfl, ht]
        | cons u us =>
          have h := ih
          rw [hS] at h
          rw [show joinSemi ((c :: t) :: u :: us) = (c :: t) ++ ';' :: joinSemi (u :: us)
            from rfl]
          rw [show joinSemi (t :: u :: us) = t ++ ';' :: joinSemi (u :: us) from rfl] at h
          rw [List.cons_append, h]

theorem splitSemi_no_semi : ∀ (l : List Char), ∀ t ∈ splitSemi l, ';' ∉ t := by
  intro l
  induction l with
  | nil =>
    intro t ht
    simp [splitSemi] at ht
    simp [ht]
  | cons c rest ih =>
    intro t ht
    by_cases hc : c = ';'
    · subst hc
      rw [show splitSemi (';' :: rest) = [] :: splitSemi rest
        from by simp [splitSemi]] at ht
      rcases List.mem_cons.mp ht with h | h
      · simp [h]
      · exact ih t h
    · rw [show splitSemi (c :: rest) = match splitSemi rest with
        | [] => [[c]]
        | t :: ts => (c :: t) :: ts
        from by simp [splitSemi, hc]] at ht
      cases hS : splitSemi rest with
      | nil => exact absurd hS (splitSemi_ne_nil rest)
      | cons t0 ts =>
        rw [hS] at ht
        rcases List.mem_cons.mp ht with h | h
        · subst h
          intro hmem
          rcases List.mem_cons.mp hmem with h1 | h1
          · exact hc h1.symm
          · exact ih t0 (by rw [hS]; simp) h1
        · exact ih t (by rw [hS]; simp [h])

theorem splitSemi_chars : ∀ (l : List Char), ∀ t ∈ splitSemi l, ∀ c ∈ t, c ∈ l := by
  intro l
  induction l with
  | nil =>
    intro t ht c hct
    simp [splitSemi] at ht
    rw [ht] at hct
    simp at hct
  | cons d rest ih =>
    intro t ht c hct
    by_cases hd : d = ';'
    · subst hd
      rw [show splitSemi (';' :: rest) = [] :: splitSemi rest
        from by simp [splitSemi]] at ht
      rcases List.mem_cons.mp ht with h | h
      · rw [h] at hct; simp at hct
      · exact List.mem_cons_of_mem _ (ih t h c hct)
    · rw [show splitSemi (d :: rest) = match splitSemi rest with
        | [] => [[d]]
        | t :: ts => (d :: t) :: ts
        from by simp [splitSemi, hd]] at ht
      cases hS : splitSemi rest with
      | nil => exact absurd hS (splitSemi_ne_nil rest)
      | cons t0 ts =>
        rw [hS] at ht
        rcases List.mem_cons.mp ht with h | h
        · subst h
          rcases List.mem_cons.mp hct with h1 | h1
          · simp [h1]
          · exact List.mem_cons_of_mem _ (ih t0 (by rw [hS]; simp) c h1)
        · exact List.mem_cons_of_mem _ (ih t (by rw [hS]; simp [h]) c hct)

theorem pySplitFirstSpace_append :
    ∀ (name rest : List Char), ' ' ∉ name →
      pySplitFirstSpace (name ++ ' ' :: rest) = some rest := by
  intro name rest
  induction name with
  | nil => intro _; simp [pySplitFirstSpace]
  | cons c n0 ih =>
    intro h
    have hc : ¬(c = ' ') := fun he => h (by rw [he]; simp)
    rw [List.cons_append]
    simp only [pySplitFirstSpace, if_neg hc]
    exact ih (fun hm => h (List.mem_cons_of_mem c hm))

/-- C9: taxonomy parsing splits the description after the leading
non-taxonomic token into semicolon-delimited rank tokens (`parse_taxonomy`
of `silva.ipynb`; the tokens rejoin to the original text and contain no
delimiter), and the OTU-table notebook normalizes each of the retained
tokens by stripping a trailing parenthesized confidence score, removing
the `isolate` qualifier, replacing underscores with spaces and trimming
whitespace (`parse_rank`), as long as tokens carry no interior newline
(record descriptions are single lines). -/
theorem taxonomy_parsing_splits_and_normalizes :
    (∀ name rest : List Char, ' ' ∉ name →
      parse_taxonomy (name ++ ' ' :: rest) = some (splitSemi rest))
    ∧ (∀ l : List Char, joinSemi (splitSemi l) = l ∧ ∀ t ∈ splitSemi l, ';' ∉ t)
    ∧ (∀ tax : List Char, '\n' ∉ tax →
        parse_taxa_ranks tax
          = (((splitSemi tax).drop 1).take 6).map specNormalizeRank) := by
  refine ⟨?_, ?_, ?_⟩
  · intro name rest h
    unfold parse_taxonomy
    rw [pySplitFirstSpace_append name rest h]
    rfl
  · intro l
    exact ⟨joinSemi_splitSemi l, splitSemi_no_semi l⟩
  · intro tax hn
    unfold parse_taxa_ranks
    have h1 : ((List.map parse_rank (splitSemi tax)).drop 1).take 6
        = List.map parse_rank (((splitSemi tax).drop 1).take 6) := by
      rw [List.map_take, List.map_drop]
    rw [h1]
    apply List.map_congr_left
    intro t ht
    apply parse_rank_eq_specNormalizeRank
    intro hmem
    have hts : t ∈ splitSemi tax :=
      List.mem_of_mem_drop (List.mem_of_mem_take ht)
    exact absurd (splitSemi_chars tax t hts '\n' hmem) hn

theorem taxonomy_parsing_splits_and_normalizes_witness :
    parse_taxonomy ("AB12.1".data ++ ' ' :: "Bacteria;Pseudo_monas(0.9)".data)
      = some (splitSemi "Bacteria;Pseudo_monas(0.9)".data)
    ∧ parse_taxa_ranks "seqid;Bacteria;Pseudo_monas(0.9) isolate".data
      = (((splitSemi "seqid;Bacteria;Pseudo_monas(0.9) isolate".data).drop 1).take 6).map
          specNormalizeRank := by
  constructor
  · exact taxonomy_parsing_splits_and_normalizes.1 _ _ (by decide)
  · exact taxonomy_parsing_splits_and_normalizes.2.2 _ (by decide)

/-- Lexicographic comparison of strings by code point, as Python compares
`str` values (used by `sorted(..., key=lambda x: x.id)`). -/
def charLeb : List Char → List Char → Bool
  | [], _ => true
  | _ :: _, [] => false
  | c :: cs, d :: ds => if c = d then charLeb cs ds else decide (c < d)

theorem charLeb_total : ∀ a b : List Char, (charLeb a b || charLeb b a) = true := by
  intro a
  induction a with
  | nil => intro b; simp [charLeb]
  | cons c cs ih =>
    intro b
    cases b with
    | nil => simp [charLeb]
    | cons d ds =>
      by_cases hcd : c = d
      · subst hcd
        simp only [charLeb, if_pos rfl]
        exact ih ds
      · have hdc : ¬(d = c) := fun h => hcd h.symm
        simp only [charLeb, if_neg hcd, if_neg hdc]
        rcases lt_or_gt_of_ne hcd with h | h
        · simp [h]
        · simp [h]

theorem charLeb_trans :
    ∀ a b c : List Char, charLeb a b = true → charLeb b c = true → charLeb a c = true := by
  intro a
  induction a with
  | nil => intro b c _ _; rfl
  | cons x xs ih =>
    intro b c hab hbc
    cases b with
    | nil => simp [charLeb] at hab
    | cons y ys =>
      cases c with
      | nil => simp [charLeb] at hbc
      | cons z zs =>
        by_cases hxy : x = y
        · subst hxy
          simp only [charLeb, if_pos rfl] at hab
          by_cases hyz : x = z
          · subst hyz
            simp only [charLeb, if_pos rfl] at hbc ⊢
            exact ih ys zs hab hbc
          · simp only [charLeb, if_neg hyz] at hbc ⊢
            exact hbc
        · simp only [charLeb, if_neg hxy] at hab
          have hxy' : x < y := of_decide_eq_true hab
          by_cases hyz : y = z
          · subst hyz
            simp only [charLeb, if_neg hxy]
            exact hab
          · simp only [charLeb, if_neg hyz] at hbc
            have hyz' : y < z := of_decide_eq_true hbc
            have hxz' : x < z := lt_trans hxy' hyz'
            simp only [charLeb, if_neg (ne_of_lt hxz'), decide_eq_true_eq]
            exact hxz'

theorem charLeb_antisymm :
    ∀ a b : List Char, charLeb a b = true → charLeb b a = true → a = b := by
  intro a
  induction a with
  | nil =>
    intro b _ hba
    cases b with
    | nil => rfl
    | cons d ds => simp [charLeb] at hba
  | cons c cs ih =>
    intro b hab hba
    cases b with
    | nil => simp [charLeb] at hab
    | cons d ds =>
      by_cases hcd : c = d
      · subst hcd
        simp only [charLeb, if_pos rfl] at hab hba
        rw [ih ds hab hba]
      · have hdc : ¬(d = c) := fun h => hcd h.symm
        simp only [charLeb, if_neg hcd] at hab
        simp only [charLeb, if_neg hdc] at hba
        have h1 : c < d := of_decide_eq_true hab
        have h2 : d < c := of_decide_eq_true hba
        exact absurd h2 (not_lt_of_gt h1)

/-- A training-set record of the export stage: the synthetic identifier
`';'.join(['Root', *tax])` and the sequence. -/
structure TrainRec where
  id : String
  seq : String
deriving DecidableEq, Repr

/-- Embedding of
`SeqRecord(id=';'.join(['Root', *tax]), name='', description='', seq=seqrec.seq)`. -/
def trainRecord (p : SeqRec × List String) : TrainRec :=
  { id := String.intercalate ";" ("Root" :: p.2), seq := p.1.seq }

/-- The `trainset` list comprehension of `silva.ipynb`. -/
def trainset (pairs : List (SeqRec × List String)) : List TrainRec :=
  pairs.map trainRecord

/-- The comparison used by `sorted(trainset, key=lambda x: x.id)`. -/
def idLe (a b : TrainRec) : Bool :=
  charLeb a.id.data b.id.data

/-- Embedding of `itertools.groupby(·, lambda x: x.id)`: maximal runs of
consecutive records with equal identifier, each tagged with the run's
identifier. -/
def pygroupby : List TrainRec → List (String × List TrainRec)
  | [] => []
  | x :: xs =>
    (x.id, x :: xs.takeWhile (fun y => y.id == x.id))
      :: pygroupby (xs.dropWhile (fun y => y.id == x.id))
termination_by l => l.length
decreasing_by
  have := (List.dropWhile_suffix (l := xs) (fun y => y.id == x.id)).sublist.length_le
  simp only [List.length_cons]
  omega

/-- Embedding of `taxgroups = groupby(sorted(trainset, key=lambda x: x.id),
lambda x: x.id)` from `silva.ipynb`. -/
def taxgroups (pairs : List (SeqRec × List String)) : List (String × List TrainRec) :=
  pygroupby ((trainset pairs).mergeSort idLe)

/-- Embedding of `enumerate(taxgroups, 1)`: groups numbered sequentially
from 1 in the order encountered after sorting. -/
def taxgroups_numbered (pairs : List (SeqRec × List String)) :
    List (Nat × (String × List TrainRec)) :=
  List.enumFrom 1 (taxgroups pairs)

theorem pygroupby_nil : pygroupby [] = [] := by
  rw [pygroupby]

theorem pygroupby_cons (x : TrainRec) (xs : List TrainRec) :
    pygroupby (x :: xs)
      = (x.id, x :: xs.takeWhile (fun y => y.id == x.id))
        :: pygroupby (xs.dropWhile (fun y => y.id == x.id)) := by
  rw [pygroupby]

theorem pygroupby_flatten (l : List TrainRec) :
    ((pygroupby l).map Prod.snd).flatten = l := by
  induction l using pygroupby.induct with
  | case1 => rw [pygroupby_nil]; rfl
  | case2 x xs ih =>
    rw [pygroupby_cons]
    simp only [List.map_cons, List.flatten_cons]
    rw [ih, List.cons_append, List.takeWhile_append_dropWhile]

theorem pygroupby_group_spec (l : List TrainRec) :
    ∀ p ∈ pygroupby l, p.2 ≠ [] ∧ ∀ x ∈ p.2, x.id = p.1 := by
  induction l using pygroupby.induct with
  | case1 => rw [pygroupby_nil]; intro p hp; simp at hp
  | case2 x xs ih =>
    rw [pygroupby_cons]
    intro p hp
    rcases List.mem_cons.mp hp with h | h
    · subst h
      refine ⟨by simp, ?_⟩
      intro z hz
      rcases List.mem_cons.mp hz with h1 | h1
      · rw [h1]
      · have := List.mem_takeWhile_imp h1
        simpa using this
    · exact ih p h

theorem pygroupby_key_mem {l : List TrainRec} {k : String}
    (h : k ∈ (pygroupby l).map Prod.fst) : ∃ y ∈ l, y.id = k := by
  obtain ⟨p, hp, hfst⟩ := List.mem_map.mp h
  obtain ⟨hne, hall⟩ := pygroupby_group_spec l p hp
  cases hg : p.2 with
  | nil => exact absurd hg hne
  | cons y ys =>
    have hy : y ∈ p.2 := by rw [hg]; simp
    refine ⟨y, ?_, by rw [hall y hy, hfst]⟩
    rw [← pygroupby_flatten l]
    exact List.mem_flatten.mpr ⟨p.2, List.mem_map_of_mem Prod.snd hp, hy⟩

theorem pygroupby_id_mem_keys {l : List TrainRec} {y : TrainRec} (hy : y ∈ l) :
    y.id ∈ (pygroupby l).map Prod.fst := by
  rw [← pygroupby_flatten l] at hy
  obtain ⟨g, hg, hyg⟩ := List.mem_flatten.mp hy
  obtain ⟨p, hp, hsnd⟩ := List.mem_map.mp hg
  have := (pygroupby_group_spec l p hp).2 y (by rw [hsnd]; exact hyg)
  rw [this]
  exact List.mem_map_of_mem Prod.fst hp

theorem dropWhile_id_ne (k : String) :
    ∀ (xs : List TrainRec),
      List.Pairwise (fun a b => charLeb a.id.data b.id.data = true) xs →
      (∀ z ∈ xs, charLeb k.data z.id.data = true) →
      ∀ y ∈ xs.dropWhile (fun z => z.id == k), y.id ≠ k := by
  intro xs
  induction xs with
  | nil => intro _ _ y hy; simp at hy
  | cons c rest ih =>
    intro hp hk y hy
    by_cases hck : (c.id == k) = true
    · rw [List.dropWhile_cons, if_pos hck] at hy
      exact ih hp.of_cons (fun z hz => hk z (by simp [hz])) y hy
    · rw [List.dropWhile_cons, if_neg hck] at hy
      intro hyk
      rcases List.mem_cons.mp hy with h | h
      · subst h
        exact hck (by simp [hyk])
      · have h1 : charLeb c.id.data y.id.data = true := List.rel_of_pairwise_cons hp h
        have h2 : charLeb k.data c.id.data = true := hk c (by simp)
        rw [hyk] at h1
        have heq : c.id.data = k.data := charLeb_antisymm _ _ h1 h2
        have hid : c.id = k := by
          rw [String.ext_iff]
          exact heq
        exact hck (by simp [hid])

theorem pygroupby_keys_nodup :
    ∀ l : List TrainRec,
      List.Pairwise (fun a b : TrainRec => charLeb a.id.data b.id.data = true) l →
      ((pygroupby l).map Prod.fst).Nodup := by
  intro l
  induction l using pygroupby.induct with
  | case1 => rw [pygroupby_nil]; simp
  | case2 x xs ih =>
    intro hp
    rw [pygroupby_cons]
    simp only [List.map_cons]
    rw [List.nodup_cons]
    constructor
    · intro hmem
      obtain ⟨y, hy, hyid⟩ := pygroupby_key_mem hmem
      exact dropWhile_id_ne x.id xs hp.of_cons
        (fun z hz => List.rel_of_pairwise_cons hp hz) y hy hyid
    · exact ih (hp.of_cons.sublist
        (List.dropWhile_suffix (l := xs) (fun y => y.id == x.id)).sublist)

theorem taxgroups_sorted (ps : List (SeqRec × List String)) :
    List.Pairwise (fun a b : TrainRec => charLeb a.id.data b.id.data = true)
      ((trainset ps).mergeSort idLe) := by
  have htr : ∀ a b c : TrainRec, idLe a b = true → idLe b c = true → idLe a c = true :=
    fun a b c hab hbc => charLeb_trans _ _ _ hab hbc
  have hto : ∀ a b : TrainRec, (idLe a b || idLe b a) = true :=
    fun a b => charLeb_total _ _
  have h : List.Pairwise (fun a b : TrainRec => idLe a b = true)
      ((trainset ps).mergeSort idLe) :=
    List.sorted_mergeSort htr hto (trainset ps)
  exact h

/-- C6: grouping and export form a true partition of the eligible
(record, path) pairs: the groups' contents are, together, a permutation of
the training set (each pair occurs exactly once across groups); every
group is non-empty and carries exactly the records whose identifier equals
the group key; distinct groups have distinct keys; the number of groups
equals the number of distinct identifier strings; groups are numbered
sequentially from 1 in the order encountered after sorting; and two
records lie in the same group precisely when their identifiers are
equal. -/
theorem taxgroups_partition (ps : List (SeqRec × List String)) :
    (((taxgroups ps).map Prod.snd).flatten).Perm (trainset ps)
    ∧ (∀ p ∈ taxgroups ps, p.2 ≠ [] ∧ ∀ x ∈ p.2, x.id = p.1)
    ∧ ((taxgroups ps).map Prod.fst).Nodup
    ∧ (taxgroups ps).length = ((trainset ps).map TrainRec.id).dedup.length
    ∧ (taxgroups_numbered ps).map Prod.fst = List.range' 1 (taxgroups ps).length
    ∧ ∀ (i j : Nat) (hi : i < (taxgroups ps).length) (hj : j < (taxgroups ps).length),
        ∀ x ∈ ((taxgroups ps).get ⟨i, hi⟩).2, ∀ y ∈ ((taxgroups ps).get ⟨j, hj⟩).2,
          (x.id = y.id ↔ i = j) := by
  have hperm : ((trainset ps).mergeSort idLe).Perm (trainset ps) :=
    List.mergeSort_perm _ _
  have hsorted := taxgroups_sorted ps
  have hkeysnd : ((taxgroups ps).map Prod.fst).Nodup :=
    pygroupby_keys_nodup _ hsorted
  have hkeys : ((taxgroups ps).map Prod.fst).Perm
      (((trainset ps).map TrainRec.id).dedup) := by
    rw [List.perm_ext_iff_of_nodup hkeysnd (List.nodup_dedup _)]
    intro k
    constructor
    · intro hk
      obtain ⟨y, hy, hyid⟩ := pygroupby_key_mem hk
      rw [List.mem_dedup]
      exact List.mem_map.mpr ⟨y, hperm.mem_iff.mp hy, hyid⟩
    · intro hk
      obtain ⟨y, hy, hyid⟩ := List.mem_map.mp (List.mem_dedup.mp hk)
      rw [← hyid]
      exact pygroupby_id_mem_keys (hperm.mem_iff.mpr hy)
  refine ⟨?_, ?_, hkeysnd, ?_, ?_, ?_⟩
  · rw [show ((taxgroups ps).map Prod.snd).flatten
      = (trainset ps).mergeSort idLe from pygroupby_flatten _]
    exact hperm
  · intro p hp
    exact pygroupby_group_spec _ p hp
  · rw [← hkeys.length_eq, List.length_map]
  · exact List.enumFrom_map_fst 1 (taxgroups ps)
  · intro i j hi hj x hx y hy
    have hkx : x.id = ((taxgroups ps).get ⟨i, hi⟩).1 :=
      (pygroupby_group_spec _ _ (List.get_mem (taxgroups ps) i hi)).2 x hx
    have hky : y.id = ((taxgroups ps).get ⟨j, hj⟩).1 :=
      (pygroupby_group_spec _ _ (List.get_mem (taxgroups ps) j hj)).2 y hy
    have hlen : ((taxgroups ps).map Prod.fst).length = (taxgroups ps).length :=
      List.length_map _ _
    constructor
    · intro hxy
      have hkeq : ((taxgroups ps).get ⟨i, hi⟩).1 = ((taxgroups ps).get ⟨j, hj⟩).1 := by
        rw [← hkx, ← hky, hxy]
      have hgeti : ((taxgroups ps).map Prod.fst).get ⟨i, by rw [hlen]; exact hi⟩
          = ((taxgroups ps).get ⟨i, hi⟩).1 := by
        rw [List.get_eq_getElem, List.get_eq_getElem, List.getElem_map]
      have hgetj : ((taxgroups ps).map Prod.fst).get ⟨j, by rw [hlen]; exact hj⟩
          = ((taxgroups ps).get ⟨j, hj⟩).1 := by
        rw [List.get_eq_getElem, List.get_eq_getElem, List.getElem_map]
      have hinj := List.nodup_iff_injective_get.mp hkeysnd
      have hgeq : ((taxgroups ps).map Prod.fst).get ⟨i, by rw [hlen]; exact hi⟩
          = ((taxgroups ps).map Prod.fst).get ⟨j, by rw [hlen]; exact hj⟩ := by
        rw [hgeti, hgetj]
        exact hkeq
      have hfin := hinj hgeq
      exact congrArg Fin.val hfin
    · intro hij
      subst hij
      rw [hkx, hky]

/-- A small concrete input for the grouping stage: two pairs share a
taxonomy path and a third differs. -/
def taxPairsExample : List (SeqRec × List String) :=
  [({ id := "s1", name := "", description := "", seq := "ACGT" },
      ["Bacteria", "X", "Y", "Z", "W", "G1", "S1"]),
   ({ id := "s2", name := "", description := "", seq := "TTTT" },
      ["Bacteria", "X", "Y", "Z", "W", "G1", "S1"]),
   ({ id := "s3", name := "", description := "", seq := "GGGG" },
      ["Bacteria", "X", "Y", "Z", "W", "G2", "S2"])]

theorem taxgroups_partition_witness :
    (taxgroups taxPairsExample).length = 2
    ∧ (taxgroups_numbered taxPairsExample).map Prod.fst = List.range' 1 2 := by
  have h := taxgroups_partition taxPairsExample
  have hd : ((trainset taxPairsExample).map TrainRec.id).dedup.length = 2 := by decide
  have hlen : (taxgroups taxPairsExample).length = 2 := by
    rw [h.2.2.2.1, hd]
  exact ⟨hlen, by rw [h.2.2.2.2.1, hlen]⟩
